import Mathlib

/-!
Verification of the resumable streaming archive writer
(acquire_sub_posts_json.py) against its specification.

The Python source is shallowly embedded: file contents are lists of
characters, the filesystem triple (plain file, compressed file, marker
file) is an explicit record, the record generator and the HTTP layer are
oracles passed as functions, and each code path of the script becomes a
pure Lean function mirroring the source line by line.
-/

/-- A fetched record (a post dictionary).  The remote API is asked for
exactly the fields id, created_utc, domain, author, title, selftext,
permalink; created_utc is the integer timestamp, all other fields are
strings. -/
structure Post where
  id : List Char
  created_utc : Nat
  domain : List Char
  author : List Char
  title : List Char
  selftext : List Char
  permalink : List Char
deriving DecidableEq, Repr

/-- The archive's on-disk state: the plain JSON file, the compressed
file, and the .incomplete marker file.  A field is none when the file
does not exist. -/
structure FS where
  plain : Option (List Char)
  gz : Option (List Char)
  marker : Option (List Char)
deriving DecidableEq, Repr

/-- How one invocation of the write loop ends: the generator is
exhausted naturally, an HTTP error propagates out of a fetch, some other
exception (e.g. the RuntimeError after retry exhaustion) propagates, or
the user interrupts (SIGINT converted to GracefulInterrupt). -/
inductive EndKind where
  | natural
  | httpErr (status : Nat)
  | exc
  | interrupt
deriving DecidableEq, Repr

/-- Writing s into content c at byte position p, Python rb+ semantics:
bytes under the write are overwritten, bytes beyond it are kept, the
file is extended if the write runs past the end.  Returns the new
content and the new file position. -/
def writeAt (c : List Char) (p : Nat) (s : List Char) : List Char × Nat :=
  (c.take p ++ s ++ c.drop (p + s.length), p + s.length)

/-- Index of the first occurrence of the closing brace, if any. -/
def findBraceIdx : List Char → Option Nat
  | [] => none
  | c :: rest => if c = '}' then some 0 else (findBraceIdx rest).map (· + 1)

/-- The backward scan of write_posts_to_file (lines 171-180): starting
from the end of file, step back until a closing brace is read, and
leave the cursor just after it.  If no closing brace exists the loop
runs to position 0 and the last one-byte read leaves the cursor at 1
(at 0 for an empty file). -/
def scanBackPos (c : List Char) : Nat :=
  match findBraceIdx c.reverse with
  | some j => c.length - j
  | none => if c.length = 0 then 0 else 1

/-- The separator written between records: a comma and a newline. -/
def sepChars : List Char := [',', '\n']

/-- The closing delimiter: a newline and a closing bracket. -/
def closeChars : List Char := ['\n', ']']

/-- json.dumps escaping of one character (ensure_ascii=True, the
default): the two-character escapes for quote, backslash and the named
control characters, \uXXXX for other control and non-ASCII characters,
and a surrogate pair for characters beyond the basic plane. -/
def hexDig (n : Nat) : Char :=
  if n < 10 then Char.ofNat (48 + n) else Char.ofNat (87 + n)

def uEscape (n : Nat) : List Char :=
  ['\\', 'u', hexDig (n / 4096 % 16), hexDig (n / 256 % 16),
   hexDig (n / 16 % 16), hexDig (n % 16)]

def escapeChar (c : Char) : List Char :=
  if c = '"' then ['\\', '"']
  else if c = '\\' then ['\\', '\\']
  else if c = '\n' then ['\\', 'n']
  else if c = '\r' then ['\\', 'r']
  else if c = '\t' then ['\\', 't']
  else if c.toNat = 8 then ['\\', 'b']
  else if c.toNat = 12 then ['\\', 'f']
  else if c.toNat < 32 then uEscape c.toNat
  else if c.toNat < 127 then [c]
  else if c.toNat < 65536 then uEscape c.toNat
  else uEscape (55296 + (c.toNat - 65536) / 1024) ++
       uEscape (56320 + (c.toNat - 65536) % 1024)

def escapeStr : List Char → List Char
  | [] => []
  | c :: rest => escapeChar c ++ escapeStr rest

/-- Python str of a non-negative integer, canonical decimal. -/
def digitChar (d : Nat) : Char := Char.ofNat (48 + d)

def natCharsAux : Nat → Nat → List Char
  | 0, _ => []
  | fuel + 1, n =>
      if n < 10 then [digitChar n]
      else natCharsAux fuel (n / 10) ++ [digitChar (n % 10)]

def natChars (n : Nat) : List Char := natCharsAux (n + 1) n

/-- json.dumps of a Python string: quote, escaped body, quote. -/
def strDump (s : List Char) : List Char := '"' :: (escapeStr s ++ ['"'])

/-- One key-value member as json.dumps prints it (default separators,
so a colon and one space between key and value). -/
def memberDump (k v : List Char) : List Char :=
  '"' :: (escapeStr k ++ '"' :: ':' :: ' ' :: v)

def idKey : List Char := ['i', 'd']
def cuKey : List Char := ['c', 'r', 'e', 'a', 't', 'e', 'd', '_', 'u', 't', 'c']
def domainKey : List Char := ['d', 'o', 'm', 'a', 'i', 'n']
def authorKey : List Char := ['a', 'u', 't', 'h', 'o', 'r']
def titleKey : List Char := ['t', 'i', 't', 'l', 'e']
def selftextKey : List Char := ['s', 'e', 'l', 'f', 't', 'e', 'x', 't']
def permalinkKey : List Char := ['p', 'e', 'r', 'm', 'a', 'l', 'i', 'n', 'k']

/-- The members of json.dumps(post), in the field order of the API
request, joined by the default item separator (comma and one space). -/
def dumpsBody (p : Post) : List Char :=
  memberDump idKey (strDump p.id) ++
  ',' :: ' ' :: (memberDump cuKey (natChars p.created_utc) ++
  ',' :: ' ' :: (memberDump domainKey (strDump p.domain) ++
  ',' :: ' ' :: (memberDump authorKey (strDump p.author) ++
  ',' :: ' ' :: (memberDump titleKey (strDump p.title) ++
  ',' :: ' ' :: (memberDump selftextKey (strDump p.selftext) ++
  ',' :: ' ' :: memberDump permalinkKey (strDump p.permalink))))))

/-- json.dumps(post): an object built from the seven requested fields. -/
def dumps (p : Post) : List Char := '{' :: (dumpsBody p ++ ['}'])

/-- Record texts glued after an existing nonempty prefix: each one is
preceded by the comma-newline separator. -/
def glue (items : List (List Char)) : List Char :=
  (items.map (fun it => sepChars ++ it)).flatten

/-- Record texts joined by the comma-newline separator. -/
def joinSep : List (List Char) → List Char
  | [] => []
  | x :: xs => x ++ glue xs

/-- The plain file's content while records are being appended: the
opening bracket followed by the records written so far.  This is the
record-boundary shape; the file ends exactly after the last record's
closing brace. -/
def arrayFront (items : List (List Char)) : List Char := '[' :: joinSep items

/-- The plain file's content after the closing delimiter is written. -/
def arrayOf (items : List (List Char)) : List Char := arrayFront items ++ closeChars

/-- One iteration of the write loop at record-boundary granularity
(lines 188-195): write the separator unless this is the first record of
the file's lifetime, then write the serialized record.  State: content,
file position, first_post flag. -/
def appendPost (st : List Char × Nat × Bool) (p : Post) : List Char × Nat × Bool :=
  if st.2.2 then
    let w := writeAt st.1 st.2.1 (dumps p)
    (w.1, w.2, false)
  else
    let w1 := writeAt st.1 st.2.1 sepChars
    let w2 := writeAt w1.1 w1.2 (dumps p)
    (w2.1, w2.2, false)

/-- The state of the open file before the loop (lines 166-180): a fresh
file gets the opening bracket written at position 0 and first_post is
true; a resuming file keeps its bytes, the cursor is repositioned by the
backward scan, and first_post is false. -/
def writerInit (c0 : List Char) (isInc : Bool) : List Char × Nat × Bool :=
  if isInc then (c0, scanBackPos c0, false)
  else ((writeAt c0 0 ['[']).1, (writeAt c0 0 ['[']).2, true)

/-- The file content after the given list of records has been appended
in this invocation. -/
def midContent (c0 : List Char) (isInc : Bool) (posts : List Post) : List Char :=
  (posts.foldl appendPost (writerInit c0 isInc)).1

/-- The save_incomplete path (lines 218-225): write the closing
delimiter at the current position and return the timestamp of the post
variable, or the incoming after cursor if no post was ever bound. -/
def abortSave (fs : FS) (c2 : List Char) (pos2 : Nat) (after : Option Nat)
    (written : List Post) : FS × Option Nat :=
  ({ fs with plain := some (writeAt c2 pos2 closeChars).1 },
    match written.getLast? with
    | some p => some p.created_utc
    | none => after)

/-- write_posts_to_file, at record-boundary granularity.  Inputs: the
filesystem, the is_incomplete flag, the incoming after cursor, the list
of records the generator yields before the run ends, and how the run
ends.  Output: the filesystem afterwards and the Python return value
(some t for a resume timestamp, none for the Python None). -/
def writePostsToFile (gzipF : List Char → List Char) (fs : FS) (isInc : Bool)
    (after : Option Nat) (written : List Post) (endk : EndKind) : FS × Option Nat :=
  let c0 := fs.plain.getD []
  let st := written.foldl appendPost (writerInit c0 isInc)
  match endk with
  | .natural =>
      let c3 := (writeAt st.1 st.2.1 closeChars).1
      ({ plain := none, gz := some (gzipF c3), marker := fs.marker }, none)
  | .interrupt => abortSave fs st.1 st.2.1 after written
  | .httpErr _ =>
      if st.2.2 then ({ fs with plain := none }, none)
      else abortSave fs st.1 st.2.1 after written
  | .exc =>
      if st.2.2 then ({ fs with plain := none }, none)
      else abortSave fs st.1 st.2.1 after written

/-- Python whitespace as stripped by int(). -/
def isPyWs (c : Char) : Bool :=
  c = ' ' || c = '\n' || c = '\t' || c = '\r' || c.toNat = 11 || c.toNat = 12

def pyStrip (s : List Char) : List Char :=
  ((s.dropWhile isPyWs).reverse.dropWhile isPyWs).reverse

def digitStep (acc : Nat) (c : Char) : Nat := 10 * acc + (c.toNat - 48)

/-- Python int(s) for the marker contents this program ever writes
(decimal digits, possibly with surrounding whitespace): none models the
ValueError raised on empty or non-numeric content. -/
def parsePyInt (s : List Char) : Option Nat :=
  let t := pyStrip s
  if t.isEmpty then none
  else if t.all (fun c => c.isDigit) then some (t.foldl digitStep 0)
  else none

/-- Result of one pipeline invocation: a normal return with the final
filesystem and whether the writer (hence any fetching) ran at all, or
an uncaught exception escaping with the filesystem as it was at the
raise. -/
inductive PipeOutcome where
  | ok (fs : FS) (ranWriter : Bool)
  | raised (fs : FS)
deriving DecidableEq, Repr

/-- dump_subreddit_json: the orchestration policy (lines 252-298).  The
records fetched and the way the write loop ends are oracle inputs, since
they come from the network. -/
def dumpSubredditJson (gzipF : List Char → List Char) (fs : FS)
    (written : List Post) (endk : EndKind) : PipeOutcome :=
  if fs.gz.isSome then .ok fs false
  else
    let isInc0 := fs.marker.isSome
    let fileEx := fs.plain.isSome
    let fs1 := if isInc0 && !fileEx then { fs with marker := none } else fs
    let isInc := isInc0 && fileEx
    if fileEx && !isInc then .ok fs1 false
    else if isInc then
      match parsePyInt (fs1.marker.getD []) with
      | none => .raised fs1
      | some t =>
          let r := writePostsToFile gzipF { fs1 with marker := some [] } true (some t) written endk
          match r.2 with
          | some v => .ok { r.1 with marker := some (natChars v) } true
          | none => .ok { r.1 with marker := none } true
    else
      let r := writePostsToFile gzipF { fs1 with marker := some [] } false none written endk
      match r.2 with
      | some v => .ok { r.1 with marker := some (natChars v) } true
      | none => .ok { r.1 with marker := none } true

/-- One attempt of the HTTP request inside fetch_chunk: a successful
JSON page, an HTTPError with a status, or any other exception. -/
inductive Attempt where
  | ok (posts : List Post)
  | httpErr (status : Nat)
  | exc
deriving DecidableEq, Repr

/-- How fetch_chunk ends: returning a page, letting an HTTPError or
another exception propagate, or raising RuntimeError after exhausting
the retries. -/
inductive FetchOut where
  | ok (posts : List Post)
  | raisedHttp (status : Nat)
  | raisedExc
  | exhausted
deriving DecidableEq, Repr

/-- The retry loop of fetch_chunk (lines 79-92); att i is the outcome
of the i-th attempt, the second component records each time.sleep
performed, in order.  Only status 524 is retried; the loop runs while
retries is at most max_retries, so rem counts the attempts left. -/
def fetchChunkAux (att : Nat → Attempt) (delay : Nat) : Nat → Nat → FetchOut × List Nat
  | _, 0 => (.exhausted, [])
  | i, rem + 1 =>
      match att i with
      | .ok posts => (.ok posts, [])
      | .httpErr s =>
          if s = 524 then
            let r := fetchChunkAux att delay (i + 1) rem
            (r.1, delay :: r.2)
          else (.raisedHttp s, [])
      | .exc => (.raisedExc, [])

/-- fetch_chunk with its retry policy: max_retries bounds the retries,
so max_retries + 1 attempts are available in total. -/
def fetchChunk (att : Nat → Attempt) (maxRetries delay : Nat) : FetchOut × List Nat :=
  fetchChunkAux att delay 0 (maxRetries + 1)

/-- fetch_all_subreddit_posts (lines 106-117): pages is the remote
oracle mapping the current after cursor to the returned page; the
generator yields each nonempty page in full, then continues from the
last record's timestamp plus one, and stops at the first empty page.
fuel bounds the number of pages so the model is total. -/
def runGen (pages : Option Nat → List Post) : Option Nat → Nat → List Post
  | _, 0 => []
  | a, fuel + 1 =>
      let chunk := pages a
      match chunk.getLast? with
      | none => []
      | some p => chunk ++ runGen pages (some (p.created_utc + 1)) fuel

/-- Atomic actions of the write loop body, for the fine-grained model
of interrupt arrival: binding the next yielded post to the post
variable, and one f.write call. -/
inductive Act where
  | bindP (p : Post)
  | wr (s : List Char)
deriving DecidableEq, Repr

/-- Fine-grained loop state: file content, position, and the post
variable (the last record bound by the for statement). -/
structure FSt where
  c : List Char
  pos : Nat
  last : Option Post
deriving DecidableEq, Repr

def execAct (st : FSt) : Act → FSt
  | .bindP p => { st with last := some p }
  | .wr s =>
      let w := writeAt st.c st.pos s
      { st with c := w.1, pos := w.2 }

/-- The write loop unrolled into its atomic actions: for each record,
bind it, write the separator unless it is the first record, write its
serialization. -/
def loopActs : Bool → List Post → List Act
  | _, [] => []
  | first, p :: rest =>
      Act.bindP p :: ((if first then [] else [Act.wr sepChars]) ++
        (Act.wr (dumps p) :: loopActs false rest))

/-- An interrupt arriving after exactly k atomic actions of the loop:
the GracefulInterrupt exception is raised there, save_incomplete runs
(closing delimiter written at the current position), and the returned
timestamp comes from the post variable as bound so far.  init is the
(content, position, first_post) state produced by writerInit. -/
def fineInterrupt (init : List Char × Nat × Bool) (after : Option Nat)
    (posts : List Post) (k : Nat) : List Char × Option Nat :=
  let st := ((loopActs init.2.2 posts).take k).foldl execAct ⟨init.1, init.2.1, none⟩
  ((writeAt st.c st.pos closeChars).1,
    match st.last with
    | some p => some p.created_utc
    | none => after)

/-- The number of atomic actions in the first j iterations of the loop:
an interrupt arriving at this budget arrives at an iteration boundary. -/
def boundaryBudget (first : Bool) (posts : List Post) (j : Nat) : Nat :=
  (loopActs first (posts.take j)).length

/-- Sample records used to instantiate theorems on concrete inputs. -/
def postA : Post :=
  { id := ['a'], created_utc := 100, domain := ['d'], author := ['u'],
    title := ['t'], selftext := [], permalink := ['p'] }

def postB : Post :=
  { id := ['b'], created_utc := 105, domain := ['d'], author := ['u'],
    title := ['t'], selftext := [], permalink := ['p'] }

/-- A record whose title contains a closing brace; its serialization
has a closing brace inside a string literal. -/
def postBrace : Post :=
  { id := ['b'], created_utc := 0, domain := [], author := [],
    title := ['}'], selftext := [], permalink := [] }

/-!  A syntactic grammar for JSON texts (RFC 8259 shape, restricted to
the productions this program can emit: the number production covers the
non-negative integers the serializer prints).  A list of characters in
one of these predicates is a syntactically valid JSON fragment. -/

/-- JSON insignificant whitespace. -/
def isJWs (c : Char) : Bool := c = ' ' || c = '\t' || c = '\n' || c = '\r'

def WsTxt (w : List Char) : Prop := ∀ c ∈ w, isJWs c = true

def isHexChar (c : Char) : Bool :=
  c.isDigit || ('a' ≤ c && c ≤ 'f') || ('A' ≤ c && c ≤ 'F')

/-- One element of a JSON string body: an unescaped character, a
two-character escape, or a \uXXXX escape. -/
inductive SChar : List Char → Prop where
  | lit (c : Char) : c ≠ '"' → c ≠ '\\' → 32 ≤ c.toNat → SChar [c]
  | esc (c : Char) :
      (c = '"' ∨ c = '\\' ∨ c = '/' ∨ c = 'b' ∨ c = 'f' ∨ c = 'n' ∨ c = 'r' ∨ c = 't') →
      SChar ['\\', c]
  | uesc (a b c d : Char) : isHexChar a = true → isHexChar b = true →
      isHexChar c = true → isHexChar d = true → SChar ['\\', 'u', a, b, c, d]

/-- A JSON string body: a sequence of string elements. -/
inductive SBody : List Char → Prop where
  | nil : SBody []
  | cons {s r : List Char} : SChar s → SBody r → SBody (s ++ r)

/-- A JSON number (the integer forms: zero, or a nonzero leading digit
followed by digits). -/
inductive NumTxt : List Char → Prop where
  | zero : NumTxt ['0']
  | pos (c : Char) (ds : List Char) : '1' ≤ c → c ≤ '9' →
      (∀ d ∈ ds, d.isDigit = true) → NumTxt (c :: ds)

mutual
/-- The text of one JSON value. -/
inductive ValTxt : List Char → Prop where
  | str {b : List Char} : SBody b → ValTxt ('"' :: (b ++ ['"']))
  | num {s : List Char} : NumTxt s → ValTxt s
  | tru : ValTxt ['t', 'r', 'u', 'e']
  | fal : ValTxt ['f', 'a', 'l', 's', 'e']
  | nul : ValTxt ['n', 'u', 'l', 'l']
  | arrNil {w : List Char} : WsTxt w → ValTxt ('[' :: (w ++ [']']))
  | arr {e : List Char} : ElemsTxt e → ValTxt ('[' :: (e ++ [']']))
  | objNil {w : List Char} : WsTxt w → ValTxt ('{' :: (w ++ ['}']))
  | obj {m : List Char} : MembersTxt m → ValTxt ('{' :: (m ++ ['}']))

/-- The comma-separated element list of a nonempty JSON array, each
element surrounded by optional whitespace. -/
inductive ElemsTxt : List Char → Prop where
  | single {w1 v w2 : List Char} : WsTxt w1 → ValTxt v → WsTxt w2 →
      ElemsTxt (w1 ++ v ++ w2)
  | more {w1 v w2 rest : List Char} : WsTxt w1 → ValTxt v → WsTxt w2 →
      ElemsTxt rest → ElemsTxt (w1 ++ v ++ w2 ++ ',' :: rest)

/-- The comma-separated member list of a nonempty JSON object. -/
inductive MembersTxt : List Char → Prop where
  | single {w1 k w2 w3 v w4 : List Char} : WsTxt w1 → SBody k → WsTxt w2 →
      WsTxt w3 → ValTxt v → WsTxt w4 →
      MembersTxt (w1 ++ '"' :: (k ++ '"' :: (w2 ++ ':' :: (w3 ++ v ++ w4))))
  | more {w1 k w2 w3 v w4 rest : List Char} : WsTxt w1 → SBody k → WsTxt w2 →
      WsTxt w3 → ValTxt v → WsTxt w4 → MembersTxt rest →
      MembersTxt (w1 ++ '"' :: (k ++ '"' :: (w2 ++ ':' :: (w3 ++ v ++ w4 ++ ',' :: rest))))
end

/-- The text parses as a syntactically valid JSON array: an opening
bracket, either only whitespace or an element list, and a closing
bracket. -/
def JsonArrayTxt (s : List Char) : Prop :=
  (∃ w, WsTxt w ∧ s = '[' :: (w ++ [']'])) ∨
  (∃ e, ElemsTxt e ∧ s = '[' :: (e ++ [']']))

/-- The value of the Python post variable after iterating over the
given records, when it held l0 before the loop. -/
def lastOr (posts : List Post) (l0 : Option Post) : Option Post :=
  match posts.getLast? with
  | some p => some p
  | none => l0

/-- Bytes left by a crash that truncated the file in the middle of
appending postBrace: the separator plus a prefix of the record cut just
after the closing brace inside the title string literal. -/
def badTail : List Char := (sepChars ++ dumps postBrace).take 71

/-- A resuming file content consisting of one complete record followed
by truncated partial bytes that happen to contain a closing brace. -/
def badContent : List Char := arrayFront [dumps postA] ++ badTail

/-- Conclusion of claim C1: after abort handling the plain file is
either removed or parses as a valid JSON array, and after each single
record append the content is the record-boundary array prefix, ends
with the record's closing brace, and closing it yields a valid JSON
array. -/
def c1Prop (gzipF : List Char → List Char) (fs0 : FS) (resuming : Bool)
    (after : Option Nat) (oldPosts newPosts : List Post) (endk : EndKind) : Prop :=
  ((writePostsToFile gzipF fs0 resuming after newPosts endk).1.plain = none ∨
    ∃ c, (writePostsToFile gzipF fs0 resuming after newPosts endk).1.plain = some c ∧
      JsonArrayTxt c) ∧
  (∀ j, 1 ≤ j → j ≤ newPosts.length →
    midContent (fs0.plain.getD []) resuming (newPosts.take j) =
      arrayFront (((if resuming then oldPosts else []) ++ newPosts.take j).map dumps) ∧
    (midContent (fs0.plain.getD []) resuming (newPosts.take j)).getLast? = some '}' ∧
    JsonArrayTxt (midContent (fs0.plain.getD []) resuming (newPosts.take j) ++ closeChars))

/-- Conclusion of the amended claim C2: the returned resume timestamp
is the last written record's timestamp unchanged when a record was
written, the incoming after cursor when none was, and in either case at
least the incoming after value whenever all fetched records sit at or
above it. -/
def c2Prop (gzipF : List Char → List Char) (fs0 : FS) (resuming : Bool)
    (a : Nat) (newPosts : List Post) (endk : EndKind) : Prop :=
  (∀ p, newPosts.getLast? = some p →
    (writePostsToFile gzipF fs0 resuming (some a) newPosts endk).2 = some p.created_utc) ∧
  (newPosts = [] →
    (writePostsToFile gzipF fs0 resuming (some a) newPosts endk).2 = some a) ∧
  ((∀ p ∈ newPosts, a ≤ p.created_utc) →
    ∃ r, (writePostsToFile gzipF fs0 resuming (some a) newPosts endk).2 = some r ∧ a ≤ r) ∧
  (∀ p, newPosts.getLast? = some p → endk = EndKind.interrupt →
    dumpSubredditJson gzipF ⟨none, none, none⟩ newPosts endk =
      PipeOutcome.ok ⟨some (arrayOf (newPosts.map dumps)), none,
        some (natChars p.created_utc)⟩ true)

/-- The record source oracle used for concrete instantiations: one page
of two records from a fresh cursor, empty afterwards. -/
def samplePages : Option Nat → List Post :=
  fun a => if a = none then [postA, postB] else []

/-! Helper lemmas: list bookkeeping, the write primitive, and the
shapes the write loop produces. -/

theorem take_len_append {α : Type} (a b : List α) : (a ++ b).take a.length = a := by
  induction a with
  | nil => simp
  | cons x xs ih => simp [ih]

theorem drop_len_append {α : Type} (a b : List α) (n : Nat) :
    (a ++ b).drop (a.length + n) = b.drop n := by
  induction a with
  | nil => simp
  | cons x xs ih => simp [Nat.succ_add, ih]

theorem writeAt_end (c s : List Char) :
    writeAt c c.length s = (c ++ s, c.length + s.length) := by
  unfold writeAt
  have h1 : c.take c.length = c := List.take_length c
  have h2 : c.drop (c.length + s.length) = [] := by
    apply List.drop_eq_nil_of_le
    simp
  rw [h1, h2]
  simp

theorem writeAt_over (a b s : List Char) (h : b.length ≤ s.length) :
    writeAt (a ++ b) a.length s = (a ++ s, a.length + s.length) := by
  unfold writeAt
  have h1 : (a ++ b).take a.length = a := take_len_append a b
  have h2 : (a ++ b).drop (a.length + s.length) = [] := by
    rw [drop_len_append]
    exact List.drop_eq_nil_of_le h
  rw [h1, h2]
  simp

theorem glue_cons (x : List Char) (xs : List (List Char)) :
    glue (x :: xs) = sepChars ++ x ++ glue xs := by
  simp [glue, List.append_assoc]

theorem glue_append (xs ys : List (List Char)) :
    glue (xs ++ ys) = glue xs ++ glue ys := by
  simp [glue]

theorem glue_eq_sep_joinSep (xs : List (List Char)) (h : xs ≠ []) :
    glue xs = sepChars ++ joinSep xs := by
  match xs with
  | [] => exact absurd rfl h
  | x :: rest => simp [glue_cons, joinSep, List.append_assoc]

theorem joinSep_append (xs ys : List (List Char)) (h : xs ≠ []) :
    joinSep (xs ++ ys) = joinSep xs ++ glue ys := by
  match xs with
  | [] => exact absurd rfl h
  | x :: rest => simp [joinSep, glue_append, List.append_assoc]

theorem arrayFront_append (xs ys : List (List Char)) (h : xs ≠ []) :
    arrayFront (xs ++ ys) = arrayFront xs ++ glue ys := by
  simp [arrayFront, joinSep_append xs ys h]

theorem arrayFront_single (x : List Char) : arrayFront [x] = '[' :: x := by
  simp [arrayFront, joinSep, glue]

theorem appendPost_end (c : List Char) (p : Post) :
    appendPost (c, c.length, false) p =
      (c ++ sepChars ++ dumps p, (c ++ sepChars ++ dumps p).length, false) := by
  unfold appendPost
  simp only []
  rw [if_neg (by simp)]
  have w1 : writeAt c c.length sepChars = (c ++ sepChars, c.length + sepChars.length) :=
    writeAt_end c sepChars
  simp only [w1]
  have h : c.length + sepChars.length = (c ++ sepChars).length := by simp
  rw [h]
  have w2 := writeAt_end (c ++ sepChars) (dumps p)
  simp only [w2]
  simp [List.append_assoc, Nat.add_assoc]

theorem loop_end (posts : List Post) : ∀ c : List Char,
    posts.foldl appendPost (c, c.length, false) =
      (c ++ glue (posts.map dumps), (c ++ glue (posts.map dumps)).length, false) := by
  induction posts with
  | nil => intro c; simp [glue]
  | cons p rest ih =>
      intro c
      have step : appendPost (c, c.length, false) p =
          (c ++ sepChars ++ dumps p, (c ++ sepChars ++ dumps p).length, false) :=
        appendPost_end c p
      calc (p :: rest).foldl appendPost (c, c.length, false)
          = rest.foldl appendPost (appendPost (c, c.length, false) p) := by
            simp [List.foldl_cons]
        _ = rest.foldl appendPost
              (c ++ sepChars ++ dumps p, (c ++ sepChars ++ dumps p).length, false) := by
            rw [step]
        _ = (c ++ sepChars ++ dumps p ++ glue (rest.map dumps), _, false) := ih _
        _ = (c ++ glue ((p :: rest).map dumps),
              (c ++ glue ((p :: rest).map dumps)).length, false) := by
            simp [glue_cons, List.append_assoc]

theorem loop_fresh (posts : List Post) :
    posts.foldl appendPost (['['], 1, true) =
      (arrayFront (posts.map dumps), (arrayFront (posts.map dumps)).length,
        posts.isEmpty) := by
  match posts with
  | [] => simp [arrayFront, joinSep]
  | p :: rest =>
      have step : appendPost (['['], 1, true) p =
          ('[' :: dumps p, ('[' :: dumps p).length, false) := by
        unfold appendPost
        rw [if_pos rfl]
        have h1 : (1 : Nat) = (['[']).length := by simp
        rw [h1]
        have := writeAt_end ['['] (dumps p)
        simp only [this]
        simp [Nat.add_comm]
      have harr : '[' :: dumps p = arrayFront [dumps p] := by
        rw [arrayFront_single]
      calc (p :: rest).foldl appendPost (['['], 1, true)
          = rest.foldl appendPost ('[' :: dumps p, ('[' :: dumps p).length, false) := by
            simp [List.foldl_cons, step]
        _ = rest.foldl appendPost
              (arrayFront [dumps p], (arrayFront [dumps p]).length, false) := by
            rw [harr]
        _ = (arrayFront [dumps p] ++ glue (rest.map dumps), _, false) := loop_end _ _
        _ = (arrayFront ((p :: rest).map dumps),
              (arrayFront ((p :: rest).map dumps)).length, (p :: rest).isEmpty) := by
            have h2 : arrayFront [dumps p] ++ glue (rest.map dumps) =
                arrayFront ((p :: rest).map dumps) := by
              have h3 := arrayFront_append [dumps p] (rest.map dumps) (by simp)
              simp only [List.singleton_append, List.map_cons] at h3 ⊢
              exact h3.symm
            rw [h2]
            simp

/-! The backward scan: on a record-boundary content followed by
brace-free trailing bytes it lands exactly after the last complete
record. -/

theorem findBraceIdx_of_none (l : List Char) (h : ∀ c ∈ l, c ≠ '}') :
    findBraceIdx l = none := by
  induction l with
  | nil => rfl
  | cons c rest ih =>
      unfold findBraceIdx
      rw [if_neg (h c (by simp))]
      rw [ih (fun d hd => h d (by simp [hd]))]
      rfl

theorem findBraceIdx_append_of_none (l r : List Char) (h : findBraceIdx l = none) :
    findBraceIdx (l ++ r) = (findBraceIdx r).map (· + l.length) := by
  induction l with
  | nil => simp
  | cons c rest ih =>
      simp only [findBraceIdx] at h
      by_cases hc : c = '}'
      · rw [if_pos hc] at h
        exact absurd h (by simp)
      · rw [if_neg hc] at h
        have hrest : findBraceIdx rest = none := Option.map_eq_none'.mp h
        have lhs : findBraceIdx (c :: rest ++ r) = (findBraceIdx (rest ++ r)).map (· + 1) := by
          simp only [List.cons_append, findBraceIdx, if_neg hc, List.append_eq]
        rw [lhs, ih hrest]
        cases hfr : findBraceIdx r with
        | none => simp
        | some j =>
            simp only [Option.map_some', List.length_cons]
            exact congrArg some (by omega)

theorem scanBackPos_of_endsBrace (a tail : List Char) (ha : ∃ ys, a = ys ++ ['}'])
    (ht : '}' ∉ tail) : scanBackPos (a ++ tail) = a.length := by
  obtain ⟨ys, hys⟩ := ha
  have hrevA : a.reverse = '}' :: ys.reverse := by
    rw [hys, List.reverse_append]
    rfl
  have htr : findBraceIdx tail.reverse = none := by
    apply findBraceIdx_of_none
    intro c hc hceq
    exact ht (by rw [← hceq]; exact (List.mem_reverse).mp hc)
  have hfull : findBraceIdx (a ++ tail).reverse = some tail.length := by
    rw [List.reverse_append, findBraceIdx_append_of_none _ _ htr, hrevA]
    have : findBraceIdx ('}' :: ys.reverse) = some 0 := by
      unfold findBraceIdx
      rw [if_pos rfl]
    rw [this]
    simp
  unfold scanBackPos
  rw [hfull]
  simp [hys]
  omega

theorem dumps_endsBrace (p : Post) : ∃ ys, dumps p = ys ++ ['}'] :=
  ⟨'{' :: dumpsBody p, by simp [dumps]⟩

theorem joinSep_endsBrace (items : List (List Char)) (hne : items ≠ [])
    (h : ∀ it ∈ items, ∃ ys, it = ys ++ ['}']) :
    ∃ ys, joinSep items = ys ++ ['}'] := by
  induction items with
  | nil => exact absurd rfl hne
  | cons x xs ih =>
      cases hxs : xs with
      | nil =>
          obtain ⟨ys, hys⟩ := h x (by simp)
          exact ⟨ys, by simp [joinSep, glue, hys]⟩
      | cons y ys' =>
          obtain ⟨zs, hzs⟩ := ih (by simp [hxs]) (fun it hit => h it (by simp [hit]))
          rw [hxs] at hzs
          refine ⟨x ++ sepChars ++ zs, ?_⟩
          have hglue : glue (y :: ys') = sepChars ++ joinSep (y :: ys') :=
            glue_eq_sep_joinSep _ (by simp)
          have hzs2 : y ++ glue ys' = zs ++ ['}'] := by
            simpa [joinSep] using hzs
          simp [joinSep, hxs, hglue, hzs2, List.append_assoc]

theorem arrayFront_endsBrace (items : List (List Char)) (hne : items ≠ [])
    (h : ∀ it ∈ items, ∃ ys, it = ys ++ ['}']) :
    ∃ ys, arrayFront items = ys ++ ['}'] := by
  obtain ⟨ys, hys⟩ := joinSep_endsBrace items hne h
  exact ⟨'[' :: ys, by simp [arrayFront, hys]⟩

theorem scanBackPos_arrayFront (items : List (List Char)) (tail : List Char)
    (hne : items ≠ []) (h : ∀ it ∈ items, ∃ ys, it = ys ++ ['}'])
    (ht : '}' ∉ tail) :
    scanBackPos (arrayFront items ++ tail) = (arrayFront items).length :=
  scanBackPos_of_endsBrace _ _ (arrayFront_endsBrace items hne h) ht

theorem arrayFront_getLast (items : List (List Char)) (hne : items ≠ [])
    (h : ∀ it ∈ items, ∃ ys, it = ys ++ ['}']) :
    (arrayFront items).getLast? = some '}' := by
  obtain ⟨ys, hys⟩ := arrayFront_endsBrace items hne h
  rw [hys]
  exact List.getLast?_concat ys

/-! The resume path of the loop. -/

theorem appendPost_resume (items : List (List Char)) (p : Post) :
    appendPost (arrayOf items, (arrayFront items).length, false) p =
      (arrayFront items ++ sepChars ++ dumps p,
        (arrayFront items ++ sepChars ++ dumps p).length, false) := by
  unfold appendPost
  rw [if_neg (by simp)]
  have w1 : writeAt (arrayOf items) (arrayFront items).length sepChars =
      (arrayFront items ++ sepChars, (arrayFront items).length + sepChars.length) := by
    unfold arrayOf
    exact writeAt_over _ _ _ (by simp [closeChars, sepChars])
  simp only [w1]
  have h : (arrayFront items).length + sepChars.length =
      (arrayFront items ++ sepChars).length := by simp
  rw [h]
  have w2 := writeAt_end (arrayFront items ++ sepChars) (dumps p)
  simp only [w2]
  simp [List.append_assoc, Nat.add_assoc]

theorem loop_resume (items : List (List Char)) (posts : List Post) (hne : items ≠ []) :
    posts.foldl appendPost (arrayOf items, (arrayFront items).length, false) =
      if posts.isEmpty then (arrayOf items, (arrayFront items).length, false)
      else (arrayFront (items ++ posts.map dumps),
        (arrayFront (items ++ posts.map dumps)).length, false) := by
  match posts with
  | [] => simp
  | p :: rest =>
      rw [if_neg (by simp)]
      calc (p :: rest).foldl appendPost (arrayOf items, (arrayFront items).length, false)
          = rest.foldl appendPost
              (arrayFront items ++ sepChars ++ dumps p,
                (arrayFront items ++ sepChars ++ dumps p).length, false) := by
            simp [List.foldl_cons, appendPost_resume]
        _ = (arrayFront items ++ sepChars ++ dumps p ++ glue (rest.map dumps), _, false) :=
            loop_end _ _
        _ = (arrayFront (items ++ (p :: rest).map dumps),
              (arrayFront (items ++ (p :: rest).map dumps)).length, false) := by
            have h2 : arrayFront (items ++ (p :: rest).map dumps) =
                arrayFront items ++ sepChars ++ dumps p ++ glue (rest.map dumps) := by
              rw [arrayFront_append items _ hne]
              simp [glue_cons, List.append_assoc]
            rw [h2]

/-! The first_post flag after the loop. -/

theorem loop_flag (posts : List Post) : ∀ st : List Char × Nat × Bool,
    (posts.foldl appendPost st).2.2 = (st.2.2 && posts.isEmpty) := by
  induction posts with
  | nil => intro st; simp
  | cons p rest ih =>
      intro st
      have hstep : (appendPost st p).2.2 = false := by
        unfold appendPost
        by_cases h : st.2.2 <;> simp [h]
      calc ((p :: rest).foldl appendPost st).2.2
          = (rest.foldl appendPost (appendPost st p)).2.2 := by simp
        _ = ((appendPost st p).2.2 && rest.isEmpty) := ih _
        _ = (st.2.2 && (p :: rest).isEmpty) := by rw [hstep]; simp

/-! Conformance of the serializer's output to the JSON grammar. -/

theorem sbody_schar {s : List Char} (h : SChar s) : SBody s := by
  have h2 := SBody.cons h SBody.nil
  simpa using h2

theorem sbody_append {a b : List Char} (ha : SBody a) (hb : SBody b) :
    SBody (a ++ b) := by
  induction ha with
  | nil => simpa using hb
  | cons hs _ ih =>
      rw [List.append_assoc]
      exact SBody.cons hs ih

theorem isHexChar_hexDig (n : Nat) (h : n < 16) : isHexChar (hexDig n) = true := by
  interval_cases n <;> decide

theorem sbody_uEscape (n : Nat) : SBody (uEscape n) := by
  unfold uEscape
  exact sbody_schar (SChar.uesc _ _ _ _
    (isHexChar_hexDig _ (Nat.mod_lt _ (by omega)))
    (isHexChar_hexDig _ (Nat.mod_lt _ (by omega)))
    (isHexChar_hexDig _ (Nat.mod_lt _ (by omega)))
    (isHexChar_hexDig _ (Nat.mod_lt _ (by omega))))

set_option maxHeartbeats 1000000 in
theorem sbody_escapeChar (c : Char) : SBody (escapeChar c) := by
  rw [escapeChar]
  split_ifs with h1 h2 h3 h4 h5 h6 h7 h8 h9 h10
  · exact sbody_schar (SChar.esc '"' (by simp))
  · exact sbody_schar (SChar.esc '\\' (by simp))
  · exact sbody_schar (SChar.esc 'n' (by simp))
  · exact sbody_schar (SChar.esc 'r' (by simp))
  · exact sbody_schar (SChar.esc 't' (by simp))
  · exact sbody_schar (SChar.esc 'b' (by simp))
  · exact sbody_schar (SChar.esc 'f' (by simp))
  · exact sbody_uEscape _
  · exact sbody_schar (SChar.lit c h1 h2 (by omega))
  · exact sbody_uEscape _
  · exact sbody_append (sbody_uEscape _) (sbody_uEscape _)

theorem sbody_escapeStr (s : List Char) : SBody (escapeStr s) := by
  induction s with
  | nil => exact SBody.nil
  | cons c rest ih => exact sbody_append (sbody_escapeChar c) ih

theorem digitChar_isDigit (d : Nat) (h : d < 10) : (digitChar d).isDigit = true := by
  interval_cases d <;> decide

theorem digitChar_pos (d : Nat) (h1 : 1 ≤ d) (h2 : d ≤ 9) :
    '1' ≤ digitChar d ∧ digitChar d ≤ '9' := by
  interval_cases d <;> exact ⟨by decide, by decide⟩

theorem natCharsAux_congr (f1 : Nat) : ∀ f2 n : Nat, n < f1 → n < f2 →
    natCharsAux f1 n = natCharsAux f2 n := by
  induction f1 with
  | zero => intro f2 n h1 _; omega
  | succ g ih =>
      intro f2 n h1 h2
      match f2 with
      | 0 => omega
      | h + 1 =>
          simp only [natCharsAux]
          by_cases hn : n < 10
          · rw [if_pos hn, if_pos hn]
          · rw [if_neg hn, if_neg hn]
            have hd : n / 10 < n := Nat.div_lt_self (by omega) (by omega)
            rw [ih h (n / 10) (by omega) (by omega)]

theorem natCharsAux_succ (fuel n : Nat) : natCharsAux (fuel + 1) n =
    if n < 10 then [digitChar n] else natCharsAux fuel (n / 10) ++ [digitChar (n % 10)] := rfl

theorem natChars_eq (n : Nat) : natChars n =
    if n < 10 then [digitChar n] else natChars (n / 10) ++ [digitChar (n % 10)] := by
  unfold natChars
  rw [natCharsAux_succ]
  by_cases hn : n < 10
  · rw [if_pos hn, if_pos hn]
  · rw [if_neg hn, if_neg hn]
    have hd : n / 10 < n := Nat.div_lt_self (by omega) (by omega)
    rw [natCharsAux_congr n (n / 10 + 1) (n / 10) hd (by omega)]

theorem natChars_digits (n : Nat) : ∀ c ∈ natChars n, c.isDigit = true := by
  induction n using Nat.strong_induction_on with
  | _ n ih =>
      rw [natChars_eq]
      by_cases h : n < 10
      · rw [if_pos h]
        intro c hc
        rw [List.mem_singleton] at hc
        rw [hc]
        exact digitChar_isDigit n h
      · rw [if_neg h]
        intro c hc
        rcases List.mem_append.mp hc with hc1 | hc2
        · exact ih (n / 10) (Nat.div_lt_self (by omega) (by omega)) c hc1
        · rw [List.mem_singleton] at hc2
          rw [hc2]
          exact digitChar_isDigit _ (Nat.mod_lt _ (by omega))

theorem natChars_head_pos (n : Nat) (h : 1 ≤ n) :
    ∃ c cs, natChars n = c :: cs ∧ '1' ≤ c ∧ c ≤ '9' := by
  induction n using Nat.strong_induction_on with
  | _ n ih =>
      rw [natChars_eq]
      by_cases hlt : n < 10
      · rw [if_pos hlt]
        obtain ⟨h1, h2⟩ := digitChar_pos n h (by omega)
        exact ⟨digitChar n, [], rfl, h1, h2⟩
      · rw [if_neg hlt]
        obtain ⟨c, cs, hcs, hc1, hc2⟩ :=
          ih (n / 10) (Nat.div_lt_self (by omega) (by omega))
            (by omega)
        exact ⟨c, cs ++ [digitChar (n % 10)], by rw [hcs]; simp, hc1, hc2⟩

theorem numTxt_natChars (n : Nat) : NumTxt (natChars n) := by
  match n with
  | 0 =>
      have h : natChars 0 = ['0'] := by rw [natChars_eq]; rfl
      rw [h]
      exact NumTxt.zero
  | m + 1 =>
      obtain ⟨c, cs, hcs, hc1, hc2⟩ := natChars_head_pos (m + 1) (by omega)
      rw [hcs]
      refine NumTxt.pos c cs hc1 hc2 ?_
      intro d hd
      exact natChars_digits (m + 1) d (by rw [hcs]; simp [hd])

theorem valTxt_strDump (s : List Char) : ValTxt (strDump s) :=
  ValTxt.str (sbody_escapeStr s)

theorem valTxt_natChars (n : Nat) : ValTxt (natChars n) :=
  ValTxt.num (numTxt_natChars n)

theorem wsTxt_nil : WsTxt [] := by intro c hc; cases hc

theorem wsTxt_nl : WsTxt ['\n'] := by
  intro c hc
  rw [List.mem_singleton] at hc
  rw [hc]
  rfl

theorem wsTxt_sp : WsTxt [' '] := by
  intro c hc
  rw [List.mem_singleton] at hc
  rw [hc]
  rfl

theorem membersTxt_last (w1 k v : List Char) (hw : WsTxt w1) (hv : ValTxt v) :
    MembersTxt (w1 ++ memberDump k v) := by
  have h := @MembersTxt.single w1 (escapeStr k) [] [' '] v [] hw
    (sbody_escapeStr k) wsTxt_nil wsTxt_sp hv wsTxt_nil
  simpa [memberDump] using h

theorem membersTxt_cons (w1 k v rest : List Char) (hw : WsTxt w1) (hv : ValTxt v)
    (hrest : MembersTxt rest) :
    MembersTxt (w1 ++ memberDump k v ++ ',' :: rest) := by
  have h := @MembersTxt.more w1 (escapeStr k) [] [' '] v [] rest hw
    (sbody_escapeStr k) wsTxt_nil wsTxt_sp hv wsTxt_nil hrest
  simpa [memberDump, List.append_assoc] using h

theorem membersTxt_dumpsBody (p : Post) : MembersTxt (dumpsBody p) := by
  unfold dumpsBody
  have h7 : MembersTxt (' ' :: memberDump permalinkKey (strDump p.permalink)) := by
    have := membersTxt_last [' '] permalinkKey (strDump p.permalink) wsTxt_sp
      (valTxt_strDump _)
    simpa using this
  have h6 : MembersTxt (' ' :: (memberDump selftextKey (strDump p.selftext) ++
      ',' :: ' ' :: memberDump permalinkKey (strDump p.permalink))) := by
    have := membersTxt_cons [' '] selftextKey (strDump p.selftext) _ wsTxt_sp
      (valTxt_strDump _) h7
    simpa [List.append_assoc] using this
  have h5 : MembersTxt (' ' :: (memberDump titleKey (strDump p.title) ++
      ',' :: ' ' :: (memberDump selftextKey (strDump p.selftext) ++
      ',' :: ' ' :: memberDump permalinkKey (strDump p.permalink)))) := by
    have := membersTxt_cons [' '] titleKey (strDump p.title) _ wsTxt_sp
      (valTxt_strDump _) h6
    simpa [List.append_assoc] using this
  have h4 : MembersTxt (' ' :: (memberDump authorKey (strDump p.author) ++
      ',' :: ' ' :: (memberDump titleKey (strDump p.title) ++
      ',' :: ' ' :: (memberDump selftextKey (strDump p.selftext) ++
      ',' :: ' ' :: memberDump permalinkKey (strDump p.permalink))))) := by
    have := membersTxt_cons [' '] authorKey (strDump p.author) _ wsTxt_sp
      (valTxt_strDump _) h5
    simpa [List.append_assoc] using this
  have h3 : MembersTxt (' ' :: (memberDump domainKey (strDump p.domain) ++
      ',' :: ' ' :: (memberDump authorKey (strDump p.author) ++
      ',' :: ' ' :: (memberDump titleKey (strDump p.title) ++
      ',' :: ' ' :: (memberDump selftextKey (strDump p.selftext) ++
      ',' :: ' ' :: memberDump permalinkKey (strDump p.permalink)))))) := by
    have := membersTxt_cons [' '] domainKey (strDump p.domain) _ wsTxt_sp
      (valTxt_strDump _) h4
    simpa [List.append_assoc] using this
  have h2 : MembersTxt (' ' :: (memberDump cuKey (natChars p.created_utc) ++
      ',' :: ' ' :: (memberDump domainKey (strDump p.domain) ++
      ',' :: ' ' :: (memberDump authorKey (strDump p.author) ++
      ',' :: ' ' :: (memberDump titleKey (strDump p.title) ++
      ',' :: ' ' :: (memberDump selftextKey (strDump p.selftext) ++
      ',' :: ' ' :: memberDump permalinkKey (strDump p.permalink))))))) := by
    have := membersTxt_cons [' '] cuKey (natChars p.created_utc) _ wsTxt_sp
      (valTxt_natChars _) h3
    simpa [List.append_assoc] using this
  have h1 := membersTxt_cons [] idKey (strDump p.id) _ wsTxt_nil
    (valTxt_strDump _) h2
  simpa [List.append_assoc] using h1

theorem valTxt_dumps (p : Post) : ValTxt (dumps p) :=
  ValTxt.obj (membersTxt_dumpsBody p)

/-! The array shapes the writer produces are valid JSON arrays. -/

theorem elemsTxt_joinSep (items : List (List Char)) :
    ∀ w : List Char, WsTxt w → items ≠ [] → (∀ it ∈ items, ValTxt it) →
    ElemsTxt (w ++ (joinSep items ++ ['\n'])) := by
  induction items with
  | nil => intro w _ hne _; exact absurd rfl hne
  | cons x xs ih =>
      intro w hw _ hv
      cases hxs : xs with
      | nil =>
          have h := @ElemsTxt.single w x ['\n'] hw (hv x (by simp)) wsTxt_nl
          simpa [joinSep, glue] using h
      | cons y ys =>
          have hrest : ElemsTxt (['\n'] ++ (joinSep (y :: ys) ++ ['\n'])) := by
            rw [← hxs]
            exact ih ['\n'] wsTxt_nl (by simp [hxs]) (fun it hit => hv it (by simp [hit]))
          have h := @ElemsTxt.more w x [] (['\n'] ++ (joinSep (y :: ys) ++ ['\n']))
            hw (hv x (by simp)) wsTxt_nil hrest
          have hj : joinSep (x :: y :: ys) = x ++ (sepChars ++ joinSep (y :: ys)) := by
            simp [joinSep, glue_eq_sep_joinSep (y :: ys) (by simp), List.append_assoc]
          rw [hj]
          simpa [sepChars, List.append_assoc] using h

theorem jsonArrayTxt_arrayOf (items : List (List Char))
    (hv : ∀ it ∈ items, ValTxt it) : JsonArrayTxt (arrayOf items) := by
  cases hitems : items with
  | nil =>
      left
      exact ⟨['\n'], wsTxt_nl, by simp [arrayOf, arrayFront, joinSep, closeChars]⟩
  | cons x xs =>
      right
      refine ⟨joinSep (x :: xs) ++ ['\n'], ?_, ?_⟩
      · have := elemsTxt_joinSep (x :: xs) [] wsTxt_nil (by simp)
          (fun it hit => hv it (by rw [hitems]; exact hit))
        simpa using this
      · simp [arrayOf, arrayFront, closeChars, List.append_assoc]

/-! Marker round trip: the decimal the orchestrator writes is read back
as the same integer. -/

theorem natChars_ne_nil (n : Nat) : natChars n ≠ [] := by
  rw [natChars_eq]
  by_cases h : n < 10
  · rw [if_pos h]; simp
  · rw [if_neg h]; simp

theorem digitChar_toNat (d : Nat) (h : d < 10) : (digitChar d).toNat = 48 + d := by
  interval_cases d <;> decide

theorem isDigit_not_pyWs (c : Char) (h : c.isDigit = true) : isPyWs c = false := by
  have hv : 48 ≤ c.toNat ∧ c.toNat ≤ 57 := by
    simp [Char.isDigit] at h
    obtain ⟨h1, h2⟩ := h
    exact ⟨h1, h2⟩
  by_contra hne
  have hws : isPyWs c = true := by
    cases hb : isPyWs c
    · exact absurd hb hne
    · rfl
  simp only [isPyWs, Bool.or_eq_true, decide_eq_true_eq] at hws
  rcases hws with ((((hc | hc) | hc) | hc) | hc) | hc
  · rw [hc] at hv; exact absurd hv (by decide)
  · rw [hc] at hv; exact absurd hv (by decide)
  · rw [hc] at hv; exact absurd hv (by decide)
  · rw [hc] at hv; exact absurd hv (by decide)
  · omega
  · omega

theorem dropWhile_isPyWs_digits (l : List Char) (hl : ∀ c ∈ l, c.isDigit = true) :
    l.dropWhile isPyWs = l := by
  cases l with
  | nil => rfl
  | cons c rest =>
      rw [List.dropWhile_cons]
      rw [isDigit_not_pyWs c (hl c (by simp))]
      simp

theorem pyStrip_digits (l : List Char) (hl : ∀ c ∈ l, c.isDigit = true) :
    pyStrip l = l := by
  unfold pyStrip
  rw [dropWhile_isPyWs_digits l hl]
  rw [dropWhile_isPyWs_digits l.reverse
    (fun c hc => hl c ((List.mem_reverse).mp hc))]
  exact List.reverse_reverse l

theorem foldl_digitStep (n : Nat) : ∀ acc : Nat,
    (natChars n).foldl digitStep acc = acc * 10 ^ (natChars n).length + n := by
  induction n using Nat.strong_induction_on with
  | _ n ih =>
      intro acc
      rw [natChars_eq]
      by_cases h : n < 10
      · rw [if_pos h]
        simp [digitStep, digitChar_toNat n h]
        omega
      · rw [if_neg h]
        rw [List.foldl_append]
        rw [ih (n / 10) (Nat.div_lt_self (by omega) (by omega)) acc]
        simp [digitStep, digitChar_toNat (n % 10) (Nat.mod_lt _ (by omega))]
        have hmod : n % 10 ≤ 9 := by omega
        have hdiv : 10 * (n / 10) + n % 10 = n := Nat.div_add_mod n 10
        ring_nf
        omega

theorem parsePyInt_natChars (n : Nat) : parsePyInt (natChars n) = some n := by
  unfold parsePyInt
  rw [pyStrip_digits _ (natChars_digits n)]
  rw [if_neg (by simp [natChars_ne_nil n])]
  rw [if_pos (by
    rw [List.all_eq_true]
    intro c hc
    exact natChars_digits n c hc)]
  rw [foldl_digitStep n 0]
  simp

/-! Writer outcome lemmas: the content and return value of
write_posts_to_file on each path. -/

theorem writerInit_fresh : writerInit [] false = (['['], 1, true) := rfl

theorem map_dumps_ne_nil (posts : List Post) (h : posts ≠ []) :
    posts.map dumps ≠ [] := by
  intro hm
  exact h (List.map_eq_nil_iff.mp hm)

theorem map_dumps_endsBrace (posts : List Post) :
    ∀ it ∈ posts.map dumps, ∃ ys, it = ys ++ ['}'] := by
  intro it hit
  obtain ⟨q, _, hq⟩ := List.mem_map.mp hit
  rw [← hq]
  exact dumps_endsBrace q

theorem writerInit_resume (oldPosts : List Post) (hne : oldPosts ≠ []) :
    writerInit (arrayOf (oldPosts.map dumps)) true =
      (arrayOf (oldPosts.map dumps), (arrayFront (oldPosts.map dumps)).length, false) := by
  unfold writerInit
  rw [if_pos rfl]
  have hscan : scanBackPos (arrayOf (oldPosts.map dumps)) =
      (arrayFront (oldPosts.map dumps)).length := by
    unfold arrayOf
    exact scanBackPos_arrayFront _ closeChars (map_dumps_ne_nil oldPosts hne)
      (map_dumps_endsBrace oldPosts) (by decide)
  rw [hscan]

theorem writer_loop_fresh (newPosts : List Post) :
    newPosts.foldl appendPost (writerInit [] false) =
      (arrayFront (newPosts.map dumps), (arrayFront (newPosts.map dumps)).length,
        newPosts.isEmpty) := by
  rw [writerInit_fresh]
  exact loop_fresh newPosts

theorem writer_loop_resume (oldPosts newPosts : List Post) (hne : oldPosts ≠ []) :
    newPosts.foldl appendPost (writerInit (arrayOf (oldPosts.map dumps)) true) =
      if newPosts.isEmpty then
        (arrayOf (oldPosts.map dumps), (arrayFront (oldPosts.map dumps)).length, false)
      else (arrayFront ((oldPosts ++ newPosts).map dumps),
        (arrayFront ((oldPosts ++ newPosts).map dumps)).length, false) := by
  rw [writerInit_resume oldPosts hne]
  rw [loop_resume (oldPosts.map dumps) newPosts (map_dumps_ne_nil oldPosts hne)]
  by_cases hemp : newPosts.isEmpty
  · rw [if_pos hemp, if_pos hemp]
  · rw [if_neg hemp, if_neg hemp]
    simp [List.map_append]

theorem closeWrite_front (items : List (List Char)) :
    (writeAt (arrayFront items) (arrayFront items).length closeChars).1 = arrayOf items := by
  rw [writeAt_end]
  rfl

theorem closeWrite_full (items : List (List Char)) :
    (writeAt (arrayOf items) (arrayFront items).length closeChars).1 = arrayOf items := by
  unfold arrayOf
  rw [writeAt_over _ _ _ (Nat.le_refl _)]

theorem arrayOf_nil_eq : arrayOf [] = ['['] ++ closeChars := by
  simp [arrayOf, arrayFront, joinSep]

theorem writer_resume_abort (gzipF : List Char → List Char) (fs0 : FS)
    (after : Option Nat) (oldPosts newPosts : List Post) (endk : EndKind)
    (hplain : fs0.plain = some (arrayOf (oldPosts.map dumps)))
    (hne : oldPosts ≠ []) (hend : endk ≠ EndKind.natural) :
    writePostsToFile gzipF fs0 true after newPosts endk =
      ({ fs0 with plain := some (arrayOf ((oldPosts ++ newPosts).map dumps)) },
        match newPosts.getLast? with
        | some p => some p.created_utc
        | none => after) := by
  have hcontent :
      (writeAt (newPosts.foldl appendPost (writerInit (fs0.plain.getD []) true)).1
        (newPosts.foldl appendPost (writerInit (fs0.plain.getD []) true)).2.1
        closeChars).1 =
      arrayOf ((oldPosts ++ newPosts).map dumps) := by
    rw [hplain]
    simp only [Option.getD_some]
    rw [writer_loop_resume oldPosts newPosts hne]
    by_cases hemp : newPosts.isEmpty
    · rw [if_pos hemp]
      have he : newPosts = [] := by
        cases newPosts with
        | nil => rfl
        | cons x xs => simp at hemp
      rw [he]
      simp only [List.append_nil]
      exact closeWrite_full _
    · rw [if_neg hemp]
      exact closeWrite_front _
  have hflag : (newPosts.foldl appendPost (writerInit (fs0.plain.getD []) true)).2.2
      = false := by
    rw [hplain]
    simp only [Option.getD_some]
    rw [loop_flag]
    rw [writerInit_resume oldPosts hne]
    simp
  cases endk with
  | natural => exact absurd rfl hend
  | interrupt =>
      unfold writePostsToFile abortSave
      simp only [hcontent]
  | httpErr s =>
      unfold writePostsToFile abortSave
      simp only [hflag, if_neg (Bool.false_ne_true), hcontent]
  | exc =>
      unfold writePostsToFile abortSave
      simp only [hflag, if_neg (Bool.false_ne_true), hcontent]

theorem writer_fresh_abort_nonempty (gzipF : List Char → List Char) (fs0 : FS)
    (after : Option Nat) (newPosts : List Post) (endk : EndKind)
    (hplain : fs0.plain = none) (hne : newPosts ≠ []) (hend : endk ≠ EndKind.natural) :
    writePostsToFile gzipF fs0 false after newPosts endk =
      ({ fs0 with plain := some (arrayOf (newPosts.map dumps)) },
        match newPosts.getLast? with
        | some p => some p.created_utc
        | none => after) := by
  have hcontent :
      (writeAt (newPosts.foldl appendPost (writerInit (fs0.plain.getD []) false)).1
        (newPosts.foldl appendPost (writerInit (fs0.plain.getD []) false)).2.1
        closeChars).1 =
      arrayOf (newPosts.map dumps) := by
    rw [hplain]
    simp only [Option.getD_none]
    rw [writer_loop_fresh newPosts]
    exact closeWrite_front _
  have hflag : (newPosts.foldl appendPost (writerInit (fs0.plain.getD []) false)).2.2
      = false := by
    rw [hplain]
    simp only [Option.getD_none]
    rw [loop_flag, writerInit_fresh]
    cases newPosts with
    | nil => exact absurd rfl hne
    | cons x xs => simp
  cases endk with
  | natural => exact absurd rfl hend
  | interrupt =>
      unfold writePostsToFile abortSave
      simp only [hcontent]
  | httpErr s =>
      unfold writePostsToFile abortSave
      simp only [hflag, if_neg (Bool.false_ne_true), hcontent]
  | exc =>
      unfold writePostsToFile abortSave
      simp only [hflag, if_neg (Bool.false_ne_true), hcontent]

theorem writer_fresh_interrupt_empty (gzipF : List Char → List Char) (fs0 : FS)
    (after : Option Nat) (hplain : fs0.plain = none) :
    writePostsToFile gzipF fs0 false after [] EndKind.interrupt =
      ({ fs0 with plain := some (arrayOf []) }, after) := by
  have hcontent :
      (writeAt (([] : List Post).foldl appendPost (writerInit (fs0.plain.getD []) false)).1
        (([] : List Post).foldl appendPost (writerInit (fs0.plain.getD []) false)).2.1
        closeChars).1 =
      arrayOf [] := by
    rw [hplain]
    simp only [Option.getD_none]
    rw [writer_loop_fresh []]
    exact closeWrite_front _
  unfold writePostsToFile abortSave
  simp only [hcontent]
  rfl

theorem writer_fresh_err_empty (gzipF : List Char → List Char) (fs0 : FS)
    (after : Option Nat) (endk : EndKind) (hplain : fs0.plain = none)
    (hend : endk = EndKind.exc ∨ ∃ s, endk = EndKind.httpErr s) :
    writePostsToFile gzipF fs0 false after [] endk =
      ({ fs0 with plain := none }, none) := by
  have hflag : (([] : List Post).foldl appendPost (writerInit (fs0.plain.getD []) false)).2.2
      = true := by
    rw [hplain]
    simp only [Option.getD_none]
    rw [loop_flag, writerInit_fresh]
    rfl
  rcases hend with h | ⟨s, h⟩ <;> subst h <;>
    (unfold writePostsToFile
     simp [hflag]
     intro hply
     simp [hplain, writerInit_fresh] at hply)

theorem writer_fresh_natural (gzipF : List Char → List Char) (fs0 : FS)
    (after : Option Nat) (newPosts : List Post) (hplain : fs0.plain = none) :
    writePostsToFile gzipF fs0 false after newPosts EndKind.natural =
      ({ plain := none, gz := some (gzipF (arrayOf (newPosts.map dumps))),
         marker := fs0.marker }, none) := by
  have hcontent :
      (writeAt (newPosts.foldl appendPost (writerInit (fs0.plain.getD []) false)).1
        (newPosts.foldl appendPost (writerInit (fs0.plain.getD []) false)).2.1
        closeChars).1 =
      arrayOf (newPosts.map dumps) := by
    rw [hplain]
    simp only [Option.getD_none]
    rw [writer_loop_fresh newPosts]
    exact closeWrite_front _
  unfold writePostsToFile
  simp only [hcontent]

theorem writer_resume_natural (gzipF : List Char → List Char) (fs0 : FS)
    (after : Option Nat) (oldPosts newPosts : List Post)
    (hplain : fs0.plain = some (arrayOf (oldPosts.map dumps))) (hne : oldPosts ≠ []) :
    writePostsToFile gzipF fs0 true after newPosts EndKind.natural =
      ({ plain := none, gz := some (gzipF (arrayOf ((oldPosts ++ newPosts).map dumps))),
         marker := fs0.marker }, none) := by
  have hcontent :
      (writeAt (newPosts.foldl appendPost (writerInit (fs0.plain.getD []) true)).1
        (newPosts.foldl appendPost (writerInit (fs0.plain.getD []) true)).2.1
        closeChars).1 =
      arrayOf ((oldPosts ++ newPosts).map dumps) := by
    rw [hplain]
    simp only [Option.getD_some]
    rw [writer_loop_resume oldPosts newPosts hne]
    by_cases hemp : newPosts.isEmpty
    · rw [if_pos hemp]
      have he : newPosts = [] := by
        cases newPosts with
        | nil => rfl
        | cons x xs => simp at hemp
      rw [he]
      simp only [List.append_nil]
      exact closeWrite_full _
    · rw [if_neg hemp]
      exact closeWrite_front _
  unfold writePostsToFile
  simp only [hcontent]

/-! Retry policy lemmas. -/

theorem fetchChunkAux_all524 (att : Nat → Attempt) (delay : Nat) :
    ∀ rem i : Nat, (∀ k, k < rem → att (i + k) = Attempt.httpErr 524) →
      fetchChunkAux att delay i rem = (FetchOut.exhausted, List.replicate rem delay) := by
  intro rem
  induction rem with
  | zero => intro i _; rfl
  | succ r ih =>
      intro i h
      have h0 : att i = Attempt.httpErr 524 := by
        have := h 0 (by omega)
        simpa using this
      simp only [fetchChunkAux, h0, if_pos rfl]
      rw [ih (i + 1) (fun k hk => by
        have := h (k + 1) (by omega)
        simpa [Nat.add_assoc, Nat.add_comm, Nat.add_left_comm] using this)]
      simp [List.replicate_succ]

theorem fetchChunkAux_ok (att : Nat → Attempt) (delay : Nat) :
    ∀ j i rem posts, (∀ k, k < j → att (i + k) = Attempt.httpErr 524) →
      att (i + j) = Attempt.ok posts → j < rem →
      fetchChunkAux att delay i rem = (FetchOut.ok posts, List.replicate j delay) := by
  intro j
  induction j with
  | zero =>
      intro i rem posts _ hok hlt
      match rem with
      | r + 1 =>
          have h0 : att i = Attempt.ok posts := by simpa using hok
          simp only [fetchChunkAux, h0]
          rfl
  | succ jj ih =>
      intro i rem posts h524 hok hlt
      match rem with
      | r + 1 =>
          have h0 : att i = Attempt.httpErr 524 := by
            have := h524 0 (by omega)
            simpa using this
          simp only [fetchChunkAux, h0, if_pos rfl]
          rw [ih (i + 1) r posts
            (fun k hk => by
              have := h524 (k + 1) (by omega)
              simpa [Nat.add_assoc, Nat.add_comm, Nat.add_left_comm] using this)
            (by
              have : i + 1 + jj = i + (jj + 1) := by omega
              rw [this]
              exact hok)
            (by omega)]
          simp [List.replicate_succ]

/-- Claim C6: a page fetch failing with status 524 is retried up to the
fixed bound of 7 retries (8 attempts in total) with a fixed delay of 5
units slept between attempts, then fails permanently with the
retry-exhausted error; a first attempt failing with any other HTTP
status or any other exception fails immediately, with no retry and no
delay; a success after j straight 524 failures (j at most 7) returns
the page after exactly j delays of 5. -/
theorem c6_retry_policy (att : Nat → Attempt) :
    ((∀ i, i < 8 → att i = Attempt.httpErr 524) →
      fetchChunk att 7 5 = (FetchOut.exhausted, List.replicate 8 5)) ∧
    (∀ s, att 0 = Attempt.httpErr s → s ≠ 524 →
      fetchChunk att 7 5 = (FetchOut.raisedHttp s, [])) ∧
    (att 0 = Attempt.exc → fetchChunk att 7 5 = (FetchOut.raisedExc, [])) ∧
    (∀ posts j, j ≤ 7 → (∀ k, k < j → att k = Attempt.httpErr 524) →
      att j = Attempt.ok posts →
      fetchChunk att 7 5 = (FetchOut.ok posts, List.replicate j 5)) := by
  refine ⟨?_, ?_, ?_, ?_⟩
  · intro h
    unfold fetchChunk
    exact fetchChunkAux_all524 att 5 8 0 (fun k hk => by simpa using h k hk)
  · intro s h hs
    unfold fetchChunk
    simp only [fetchChunkAux, h, if_neg hs]
  · intro h
    unfold fetchChunk
    simp only [fetchChunkAux, h]
  · intro posts j hj h524 hok
    unfold fetchChunk
    exact fetchChunkAux_ok att 5 j 0 8 posts
      (fun k hk => by simpa using h524 k hk) (by simpa using hok) (by omega)

/-- Witness for C6 at a concrete attempt oracle: every attempt times
out with 524, so the fetch exhausts its 8 attempts with 8 delays of 5. -/
theorem c6_retry_policy_witness :
    fetchChunk (fun _ => Attempt.httpErr 524) 7 5 =
      (FetchOut.exhausted, List.replicate 8 5) :=
  (c6_retry_policy (fun _ => Attempt.httpErr 524)).1 (fun _ _ => rfl)

/-- Claim C7: the record source yields each fetched page in full, in
order; it terminates exactly when a fetched page is empty; the next
page's lower bound is the last record's timestamp plus one, which under
the sorted-page contract exceeds every timestamp of the page just
yielded (forward progress even with timestamp ties), and in particular
strictly advances the after cursor when the page respects it. -/
theorem c7_generator (pages : Option Nat → List Post) :
    (∀ a fuel, pages a = [] → runGen pages a (fuel + 1) = []) ∧
    (∀ a p fuel, (pages a).getLast? = some p →
      runGen pages a (fuel + 1) =
        pages a ++ runGen pages (some (p.created_utc + 1)) fuel) ∧
    (∀ a p, (pages a).getLast? = some p →
      (∀ q ∈ pages a, q.created_utc ≤ p.created_utc) →
      ∀ q ∈ pages a, q.created_utc < p.created_utc + 1) ∧
    (∀ a0 p, (pages (some a0)).getLast? = some p →
      (∀ q ∈ pages (some a0), a0 ≤ q.created_utc) →
      a0 < p.created_utc + 1) := by
  refine ⟨?_, ?_, ?_, ?_⟩
  · intro a fuel h
    simp only [runGen, h]
    rfl
  · intro a p fuel h
    simp only [runGen, h]
  · intro a p _ hsort q hq
    have := hsort q hq
    omega
  · intro a0 p hlast hsort
    have hp : p ∈ pages (some a0) := by
      obtain ⟨hne2, heq⟩ := List.mem_getLast?_eq_getLast (Option.mem_def.mpr hlast)
      rw [heq]
      exact List.getLast_mem hne2
    have := hsort p hp
    omega

/-- Witness for C7 at a concrete oracle: the page at the fresh cursor
holds two records, the page at the advanced cursor is empty, so the
generator yields the first page and then stops. -/
theorem c7_generator_witness :
    runGen samplePages none 2 =
      samplePages none ++ runGen samplePages (some 106) 1 ∧
    runGen samplePages (some 106) 1 = [] :=
  ⟨(c7_generator samplePages).2.1 none postB 1 rfl,
    (c7_generator samplePages).1 (some 106) 0 rfl⟩

/-- Claim C10: when a sealed (compressed) archive already exists, the
pipeline is a no-op: the writer (and hence any fetch) never runs and
the filesystem, including the sealed file, is returned byte-for-byte
unchanged. -/
theorem c10_sealed_noop (gzipF : List Char → List Char) (fs : FS)
    (written : List Post) (endk : EndKind) (h : fs.gz.isSome = true) :
    dumpSubredditJson gzipF fs written endk = PipeOutcome.ok fs false := by
  unfold dumpSubredditJson
  rw [if_pos h]

/-- Witness for C10: a filesystem holding only a sealed file. -/
theorem c10_sealed_noop_witness :
    dumpSubredditJson id ⟨none, some ['x'], none⟩ [postA] EndKind.natural =
      PipeOutcome.ok ⟨none, some ['x'], none⟩ false :=
  c10_sealed_noop id ⟨none, some ['x'], none⟩ [postA] EndKind.natural rfl

set_option maxRecDepth 10000 in
/-- Claim C4 is a code bug; this theorem evaluates the pipeline at the
failing input.  A fresh-start run interrupted before any record leaves
the plain file on disk with content [\n] while deleting the marker
(first conjunct) instead of removing both files; an error abort on the
same fresh start does remove both (second conjunct); and the next
invocation against the leftover state refuses to run, reporting the
Broken state (third conjunct). -/
theorem c4_fresh_interrupt_empty_bug :
    dumpSubredditJson id ⟨none, none, none⟩ [] EndKind.interrupt =
      PipeOutcome.ok ⟨some ['[', '\n', ']'], none, none⟩ true ∧
    dumpSubredditJson id ⟨none, none, none⟩ [] EndKind.exc =
      PipeOutcome.ok ⟨none, none, none⟩ true ∧
    dumpSubredditJson id ⟨some ['[', '\n', ']'], none, none⟩ [] EndKind.natural =
      PipeOutcome.ok ⟨some ['[', '\n', ']'], none, none⟩ false := by
  decide

set_option maxRecDepth 10000 in
/-- Claim C9 is a code bug; this theorem evaluates the pipeline at the
failing input.  With a marker present but empty (the state every hard
crash leaves behind, since the marker is truncated before the writer
runs), reading the resumption state raises an uncaught ValueError from
int of the empty string, so the pipeline crashes with the filesystem
untouched instead of proceeding as a fresh start. -/
theorem c9_empty_marker_crash :
    dumpSubredditJson id ⟨some ['[', '\n', ']'], none, some []⟩ [] EndKind.natural =
      PipeOutcome.raised ⟨some ['[', '\n', ']'], none, some []⟩ ∧
    parsePyInt [] = none := by
  decide

/-! Orchestration lemmas: the fresh and resume branches reduce to the
writer call with the marker pre-committed empty, followed by the
marker update. -/

theorem pipe_run_fresh (gzipF : List Char → List Char) (written : List Post)
    (endk : EndKind) :
    dumpSubredditJson gzipF ⟨none, none, none⟩ written endk =
      (match (writePostsToFile gzipF ⟨none, none, some []⟩ false none written endk).2 with
       | some v => PipeOutcome.ok
           { (writePostsToFile gzipF ⟨none, none, some []⟩ false none written endk).1 with
             marker := some (natChars v) } true
       | none => PipeOutcome.ok
           { (writePostsToFile gzipF ⟨none, none, some []⟩ false none written endk).1 with
             marker := none } true) := by
  unfold dumpSubredditJson
  simp

theorem pipe_run_resume (gzipF : List Char → List Char) (c : List Char) (t : Nat)
    (written : List Post) (endk : EndKind) :
    dumpSubredditJson gzipF ⟨some c, none, some (natChars t)⟩ written endk =
      (match (writePostsToFile gzipF ⟨some c, none, some []⟩ true (some t) written endk).2 with
       | some v => PipeOutcome.ok
           { (writePostsToFile gzipF ⟨some c, none, some []⟩ true (some t) written endk).1 with
             marker := some (natChars v) } true
       | none => PipeOutcome.ok
           { (writePostsToFile gzipF ⟨some c, none, some []⟩ true (some t) written endk).1 with
             marker := none } true) := by
  unfold dumpSubredditJson
  simp [parsePyInt_natChars]

/-- Claim C8: when the record source is naturally exhausted, the writer
writes the closing delimiter and finishes; the plain file's bytes are
then handed to the compressor, the compressed artifact replaces the
plain file, and the marker is deleted.  This holds for a fresh start
(first conjunct, including a source yielding no records at all, whose
archive seals as the empty array) and for a resuming run whose marker
holds the decimal resume timestamp (second conjunct). -/
theorem c8_natural_finish_seals (gzipF : List Char → List Char)
    (oldPosts newPosts : List Post) (t : Nat) :
    (dumpSubredditJson gzipF ⟨none, none, none⟩ newPosts EndKind.natural =
      PipeOutcome.ok ⟨none, some (gzipF (arrayOf (newPosts.map dumps))), none⟩ true) ∧
    (oldPosts ≠ [] →
      dumpSubredditJson gzipF
          ⟨some (arrayOf (oldPosts.map dumps)), none, some (natChars t)⟩
          newPosts EndKind.natural =
        PipeOutcome.ok
          ⟨none, some (gzipF (arrayOf ((oldPosts ++ newPosts).map dumps))), none⟩ true) := by
  constructor
  · rw [pipe_run_fresh]
    rw [writer_fresh_natural gzipF ⟨none, none, some []⟩ none newPosts rfl]
  · intro hne
    rw [pipe_run_resume]
    rw [writer_resume_natural gzipF ⟨some (arrayOf (oldPosts.map dumps)), none, some []⟩
      (some t) oldPosts newPosts rfl hne]

/-- Witness for C8: one archived record, one new record, identity
compressor; the resuming run seals the two-record archive. -/
theorem c8_natural_finish_seals_witness :
    [postA] ≠ ([] : List Post) ∧
    dumpSubredditJson id
        ⟨some (arrayOf ([postA].map dumps)), none, some (natChars 101)⟩
        [postB] EndKind.natural =
      PipeOutcome.ok
        ⟨none, some (arrayOf (([postA] ++ [postB]).map dumps)), none⟩ true :=
  ⟨by decide, (c8_natural_finish_seals id [postA] [postB] 101).2 (by decide)⟩

/-! The writer's returned resume timestamp. -/

theorem writerInit_flag (c0 : List Char) (isInc : Bool) :
    (writerInit c0 isInc).2.2 = !isInc := by
  unfold writerInit
  cases isInc <;> simp

theorem writer_ret (gzipF : List Char → List Char) (fs0 : FS) (resuming : Bool)
    (after : Option Nat) (newPosts : List Post) (endk : EndKind)
    (hend : endk ≠ EndKind.natural)
    (hsave : resuming = true ∨ endk = EndKind.interrupt ∨ newPosts ≠ []) :
    (writePostsToFile gzipF fs0 resuming after newPosts endk).2 =
      match newPosts.getLast? with
      | some p => some p.created_utc
      | none => after := by
  have hflag : (newPosts.foldl appendPost
      (writerInit (fs0.plain.getD []) resuming)).2.2 = (!resuming && newPosts.isEmpty) := by
    rw [loop_flag, writerInit_flag]
  have hfalse : resuming = false → newPosts = [] →
      endk = EndKind.interrupt := by
    intro h1 h2
    rcases hsave with h | h | h
    · rw [h1] at h; exact absurd h (by simp)
    · exact h
    · exact absurd h2 h
  cases endk with
  | natural => exact absurd rfl hend
  | interrupt =>
      unfold writePostsToFile abortSave
      rfl
  | httpErr s =>
      have hne : (!resuming && newPosts.isEmpty) = false := by
        cases resuming with
        | true => simp
        | false =>
            cases hnp : newPosts with
            | nil => exact absurd (hfalse rfl hnp) (by simp)
            | cons x xs => simp
      rw [hne] at hflag
      unfold writePostsToFile abortSave
      simp only [hflag, Bool.false_eq_true, if_false]
  | exc =>
      have hne : (!resuming && newPosts.isEmpty) = false := by
        cases resuming with
        | true => simp
        | false =>
            cases hnp : newPosts with
            | nil => exact absurd (hfalse rfl hnp) (by simp)
            | cons x xs => simp
      rw [hne] at hflag
      unfold writePostsToFile abortSave
      simp only [hflag, Bool.false_eq_true, if_false]

set_option maxRecDepth 10000 in
/-- Claim C2 counterexample: a fresh-start run that wrote exactly one
record (timestamp 100) and was then interrupted returns resume
timestamp 100 — the last written record's timestamp unchanged — not
100 + 1 as the claim states. -/
theorem c2_resume_timestamp_counterexample :
    (writePostsToFile id ⟨none, none, some []⟩ false (some 1) [postA]
      EndKind.interrupt).2 = some 100 ∧
    postA.created_utc = 100 ∧
    ¬ ((writePostsToFile id ⟨none, none, some []⟩ false (some 1) [postA]
      EndKind.interrupt).2 = some (postA.created_utc + 1)) := by
  decide

/-- Amended claim C2: for every aborted invocation that takes the save
path, the returned resume timestamp equals the timestamp of the last
record actually written, without the plus-one the original claim
states; it equals the incoming after value unchanged when zero records
were written; it is at least the after value the run started with
whenever the fetched records respect that lower bound; and the
orchestrator persists exactly this value in the marker. -/
theorem c2_amended_resume_timestamp (gzipF : List Char → List Char) (fs0 : FS)
    (resuming : Bool) (a : Nat) (newPosts : List Post) (endk : EndKind)
    (hend : endk ≠ EndKind.natural)
    (hsave : resuming = true ∨ endk = EndKind.interrupt ∨ newPosts ≠ []) :
    c2Prop gzipF fs0 resuming a newPosts endk := by
  have hret := writer_ret gzipF fs0 resuming (some a) newPosts endk hend hsave
  refine ⟨?_, ?_, ?_, ?_⟩
  · intro p hp
    rw [hret, hp]
  · intro he
    rw [hret, he]
    rfl
  · intro hts
    cases hnp : newPosts.getLast? with
    | none =>
        refine ⟨a, ?_, Nat.le_refl a⟩
        rw [hret, hnp]
    | some p =>
        have hpmem : p ∈ newPosts := by
          obtain ⟨h2, heq⟩ := List.mem_getLast?_eq_getLast (Option.mem_def.mpr hnp)
          rw [heq]
          exact List.getLast_mem h2
        refine ⟨p.created_utc, ?_, hts p hpmem⟩
        rw [hret, hnp]
  · intro p hp hint
    subst hint
    rw [pipe_run_fresh]
    have hne : newPosts ≠ [] := by
      intro he
      rw [he] at hp
      exact Option.noConfusion hp
    rw [writer_fresh_abort_nonempty gzipF ⟨none, none, some []⟩ none newPosts
      EndKind.interrupt rfl hne (by simp)]
    rw [hp]

/-- Witness for the amended C2 at a concrete input: a fresh interrupted
run that wrote the single record with timestamp 100, starting from
after value 1. -/
theorem c2_amended_resume_timestamp_witness :
    EndKind.interrupt ≠ EndKind.natural ∧
    c2Prop id ⟨none, none, some []⟩ false 1 [postA] EndKind.interrupt :=
  ⟨by decide,
    c2_amended_resume_timestamp id ⟨none, none, some []⟩ false 1 [postA]
      EndKind.interrupt (by decide) (Or.inr (Or.inl rfl))⟩

set_option maxRecDepth 10000 in
/-- Claim C5 counterexample: a resuming plain file holding one complete
record followed by trailing partial bytes — a truncated record whose
title string contains a closing brace.  The trailing bytes are a proper
prefix of the separator plus the next record's serialization (so they
are genuine crash-truncated partial bytes), yet the backward scan lands
at the end of the partial bytes (position 181, right after the brace
inside the string literal) instead of strictly after the last complete
record (position 110). -/
theorem c5_scanback_counterexample :
    badContent = arrayFront [dumps postA] ++ badTail ∧
    badTail = (sepChars ++ dumps postBrace).take 71 ∧
    badTail.length < (sepChars ++ dumps postBrace).length ∧
    badTail.getLast? = some '}' ∧
    scanBackPos badContent = badContent.length ∧
    badContent.length = 181 ∧
    (arrayFront [dumps postA]).length = 110 ∧
    ¬ (scanBackPos badContent = (arrayFront [dumps postA]).length) := by
  decide

/-- Amended claim C5: the resuming writer scans backward for the last
closing-brace byte and repositions the cursor immediately after it; the
cursor therefore lands exactly after the last complete record already
on disk whenever the trailing partial bytes contain no closing-brace
byte (in particular for every file the writer itself produced).  When
the trailing bytes do contain a closing brace — possible inside a
truncated string value — the cursor lands inside the partial record
instead, and trailing bytes are never truncated, only overwritten. -/
theorem c5_amended_scanback (items : List (List Char)) (tail : List Char)
    (hne : items ≠ []) (hend : ∀ it ∈ items, ∃ ys, it = ys ++ ['}'])
    (ht : '}' ∉ tail) :
    scanBackPos (arrayFront items ++ tail) = (arrayFront items).length ∧
    writerInit (arrayFront items ++ tail) true =
      (arrayFront items ++ tail, (arrayFront items).length, false) := by
  have h := scanBackPos_arrayFront items tail hne hend ht
  refine ⟨h, ?_⟩
  unfold writerInit
  rw [if_pos rfl, h]

/-- Witness for the amended C5: one complete record followed by the
closing delimiter (the writer's own graceful-abort output). -/
theorem c5_amended_scanback_witness :
    ([dumps postA] ≠ ([] : List (List Char))) ∧
    ('}' ∉ closeChars) ∧
    (scanBackPos (arrayFront [dumps postA] ++ closeChars) =
        (arrayFront [dumps postA]).length ∧
      writerInit (arrayFront [dumps postA] ++ closeChars) true =
        (arrayFront [dumps postA] ++ closeChars,
          (arrayFront [dumps postA]).length, false)) :=
  ⟨by simp, by decide,
    c5_amended_scanback [dumps postA] closeChars (by simp)
      (fun it hit => by
        rw [List.mem_singleton] at hit
        rw [hit]
        exact dumps_endsBrace postA)
      (by decide)⟩

/-! Fine-grained interrupt model lemmas: a fold over the loop's atomic
actions agrees with the record-boundary fold, and the action list of a
prefix of the records is a prefix of the action list. -/

theorem getLast?_cons_isSome (q : Post) (qs : List Post) :
    ∃ r, (q :: qs).getLast? = some r := by
  induction qs generalizing q with
  | nil => exact ⟨q, rfl⟩
  | cons a as ih =>
      rw [List.getLast?_cons_cons]
      exact ih a

theorem lastOr_cons (p : Post) (rest : List Post) (l0 : Option Post) :
    lastOr (p :: rest) l0 = lastOr rest (some p) := by
  unfold lastOr
  cases rest with
  | nil => rfl
  | cons q qs =>
      rw [List.getLast?_cons_cons]
      obtain ⟨r, hr⟩ := getLast?_cons_isSome q qs
      rw [hr]

theorem lastOr_none_eq (posts : List Post) : lastOr posts none = posts.getLast? := by
  unfold lastOr
  cases posts.getLast? <;> rfl

theorem appendPost_first_eq (c : List Char) (pos : Nat) (p : Post) :
    appendPost (c, pos, true) p =
      ((writeAt c pos (dumps p)).1, (writeAt c pos (dumps p)).2, false) := by
  unfold appendPost
  rfl

theorem appendPost_notfirst_eq (c : List Char) (pos : Nat) (p : Post) :
    appendPost (c, pos, false) p =
      ((writeAt (writeAt c pos sepChars).1 (writeAt c pos sepChars).2 (dumps p)).1,
       (writeAt (writeAt c pos sepChars).1 (writeAt c pos sepChars).2 (dumps p)).2,
       false) := by
  unfold appendPost
  rfl

theorem fine_coarse (posts : List Post) : ∀ (c : List Char) (pos : Nat)
    (first : Bool) (l0 : Option Post),
    (loopActs first posts).foldl execAct ⟨c, pos, l0⟩ =
      ⟨(posts.foldl appendPost (c, pos, first)).1,
       (posts.foldl appendPost (c, pos, first)).2.1,
       lastOr posts l0⟩ := by
  induction posts with
  | nil =>
      intro c pos first l0
      simp [loopActs, lastOr]
  | cons p rest ih =>
      intro c pos first l0
      cases first with
      | true =>
          have hacts : loopActs true (p :: rest) =
              Act.bindP p :: Act.wr (dumps p) :: loopActs false rest := by
            simp [loopActs]
          rw [hacts]
          have e1 : execAct ⟨c, pos, l0⟩ (Act.bindP p) = ⟨c, pos, some p⟩ := rfl
          have e2 : execAct ⟨c, pos, some p⟩ (Act.wr (dumps p)) =
              ⟨(writeAt c pos (dumps p)).1, (writeAt c pos (dumps p)).2, some p⟩ := rfl
          rw [List.foldl_cons, List.foldl_cons, e1, e2, ih]
          rw [List.foldl_cons, appendPost_first_eq, lastOr_cons]
      | false =>
          have hacts : loopActs false (p :: rest) =
              Act.bindP p :: Act.wr sepChars :: Act.wr (dumps p) :: loopActs false rest := by
            simp [loopActs]
          rw [hacts]
          have e1 : execAct ⟨c, pos, l0⟩ (Act.bindP p) = ⟨c, pos, some p⟩ := rfl
          have e2 : execAct ⟨c, pos, some p⟩ (Act.wr sepChars) =
              ⟨(writeAt c pos sepChars).1, (writeAt c pos sepChars).2, some p⟩ := rfl
          have e3 : execAct ⟨(writeAt c pos sepChars).1, (writeAt c pos sepChars).2, some p⟩
              (Act.wr (dumps p)) =
              ⟨(writeAt (writeAt c pos sepChars).1 (writeAt c pos sepChars).2 (dumps p)).1,
               (writeAt (writeAt c pos sepChars).1 (writeAt c pos sepChars).2 (dumps p)).2,
               some p⟩ := rfl
          rw [List.foldl_cons, List.foldl_cons, List.foldl_cons, e1, e2, e3, ih]
          rw [List.foldl_cons, appendPost_notfirst_eq, lastOr_cons]

theorem loopActs_append (ys : List Post) : ∀ (xs : List Post) (first : Bool),
    loopActs first (xs ++ ys) = loopActs first xs ++ loopActs (first && xs.isEmpty) ys := by
  intro xs
  induction xs with
  | nil =>
      intro first
      cases first <;> simp [loopActs]
  | cons x xs' ih =>
      intro first
      have h1 : loopActs false (xs' ++ ys) = loopActs false xs' ++ loopActs false ys := by
        rw [ih false]
        simp
      cases first <;> simp [loopActs, h1, List.append_assoc]

theorem loopActs_take_budget (posts : List Post) (first : Bool) (j : Nat) :
    (loopActs first posts).take (boundaryBudget first posts j) =
      loopActs first (posts.take j) := by
  unfold boundaryBudget
  calc (loopActs first posts).take (loopActs first (posts.take j)).length
      = (loopActs first (posts.take j ++ posts.drop j)).take
          (loopActs first (posts.take j)).length := by
        rw [List.take_append_drop]
    _ = (loopActs first (posts.take j) ++
          loopActs (first && (posts.take j).isEmpty) (posts.drop j)).take
          (loopActs first (posts.take j)).length := by
        rw [loopActs_append]
    _ = loopActs first (posts.take j) := take_len_append _ _

set_option maxRecDepth 10000 in
/-- Claim C3 counterexample: the interrupt exception can be raised at
any atomic step of the loop body, not only at iteration boundaries.
With two records, action 4 is the separator write of the second
iteration; an interrupt arriving right after it (before the second
record's bytes are written) aborts mid-record: the saved file ends with
a dangling separator before the closing delimiter, so it equals none of
the record-boundary contents, and the returned timestamp is that of the
second record even though it was never written. -/
theorem c3_interrupt_counterexample :
    (loopActs true [postA, postB]).take 4 =
      [Act.bindP postA, Act.wr (dumps postA), Act.bindP postB, Act.wr sepChars] ∧
    4 < (loopActs true [postA, postB]).length ∧
    (fineInterrupt (writerInit [] false) none [postA, postB] 4).1 =
      arrayFront [dumps postA] ++ [',', '\n', '\n', ']'] ∧
    (fineInterrupt (writerInit [] false) none [postA, postB] 4).1 ≠ arrayOf [] ∧
    (fineInterrupt (writerInit [] false) none [postA, postB] 4).1 ≠
      arrayOf [dumps postA] ∧
    (fineInterrupt (writerInit [] false) none [postA, postB] 4).1 ≠
      arrayOf [dumps postA, dumps postB] ∧
    (fineInterrupt (writerInit [] false) none [postA, postB] 4).2 =
      some postB.created_utc := by
  decide

/-- Amended claim C3: the interrupt-to-exception conversion is
cooperative only at iteration boundaries.  An interrupt arriving at an
iteration boundary (after j complete iterations) produces exactly the
record-boundary abort: the j records written so far are fully flushed,
the closing delimiter follows the last complete record, and the resume
timestamp is that of the last written record (or the incoming cursor
when none was).  An interrupt arriving between the separator write and
the record write of an iteration instead aborts mid-record (see the
counterexample). -/
theorem c3_amended_boundary_interrupt (resuming : Bool) (after : Option Nat)
    (oldPosts posts : List Post) (j : Nat) (c0 : List Char)
    (_hj : j ≤ posts.length)
    (hold : resuming = true → oldPosts ≠ [])
    (hc0 : c0 = if resuming then arrayOf (oldPosts.map dumps) else []) :
    fineInterrupt (writerInit c0 resuming) after posts
        (boundaryBudget (writerInit c0 resuming).2.2 posts j) =
      (arrayOf (((if resuming then oldPosts else []) ++ posts.take j).map dumps),
        match (posts.take j).getLast? with
        | some p => some p.created_utc
        | none => after) := by
  cases hr : resuming with
  | false =>
      rw [hr] at hc0
      simp only [if_neg (by simp : ¬ (false = true))] at hc0
      subst hc0
      unfold fineInterrupt
      rw [writerInit_fresh]
      simp only []
      rw [loopActs_take_budget posts true j]
      rw [fine_coarse (posts.take j) ['['] 1 true none]
      have hloop := loop_fresh (posts.take j)
      have h1 : (['['] : List Char) = arrayFront [] := by
        simp [arrayFront, joinSep]
      have hone : (1 : Nat) = (arrayFront ([] : List (List Char))).length := by
        simp [arrayFront, joinSep]
      rw [lastOr_none_eq]
      rw [hloop]
      rw [closeWrite_front]
      simp
  | true =>
      have hne := hold hr
      rw [hr] at hc0
      simp only [eq_self_iff_true, if_true] at hc0
      subst hc0
      unfold fineInterrupt
      rw [writerInit_resume oldPosts hne]
      simp only []
      rw [loopActs_take_budget posts false j]
      rw [fine_coarse (posts.take j) (arrayOf (oldPosts.map dumps))
        (arrayFront (oldPosts.map dumps)).length false none]
      rw [lastOr_none_eq]
      rw [loop_resume (oldPosts.map dumps) (posts.take j)
        (map_dumps_ne_nil oldPosts hne)]
      by_cases hemp : (posts.take j).isEmpty
      · rw [if_pos hemp]
        have he : posts.take j = [] := by
          cases h : posts.take j with
          | nil => rfl
          | cons x xs => rw [h] at hemp; simp at hemp
        rw [he]
        rw [closeWrite_full]
        simp
      · rw [if_neg hemp]
        rw [closeWrite_front]
        simp [List.map_append]

/-- Witness for the amended C3: a fresh run over one record with the
interrupt arriving at the boundary after the first full iteration. -/
theorem c3_amended_boundary_interrupt_witness :
    (1 ≤ [postA].length) ∧
    fineInterrupt (writerInit [] false) none [postA]
        (boundaryBudget (writerInit [] false).2.2 [postA] 1) =
      (arrayOf (((if false then [postA] else []) ++ [postA].take 1).map dumps),
        match ([postA].take 1).getLast? with
        | some p => some p.created_utc
        | none => none) :=
  ⟨by simp,
    c3_amended_boundary_interrupt false none [postA] [postA] 1 [] (by simp)
      (fun h => absurd h (by simp)) rfl⟩

theorem map_dumps_valTxt (posts : List Post) : ∀ it ∈ posts.map dumps, ValTxt it := by
  intro it hit
  obtain ⟨q, _, hq⟩ := List.mem_map.mp hit
  rw [← hq]
  exact valTxt_dumps q

theorem take_ne_nil (posts : List Post) (j : Nat) (h1 : 1 ≤ j) (h2 : j ≤ posts.length) :
    posts.take j ≠ [] := by
  intro h
  have hl := congrArg List.length h
  rw [List.length_take] at hl
  simp only [List.length_nil] at hl
  omega

/-- Claim C1: for every writer run starting from a reachable file state
(fresh: no plain file; resuming: the plain file is a closed JSON array
of complete records) and every abort at a record boundary (interrupt,
HTTP error, retry-exhausted or other exception), the plain file after
abort handling is either removed or parses as a syntactically valid
JSON array; and after every single record append the file content is
exactly the record-boundary array prefix, ending with the appended
record's closing brace, such that appending the closing delimiter
yields a valid JSON array. -/
theorem c1_abort_prefix_valid (gzipF : List Char → List Char) (fs0 : FS)
    (resuming : Bool) (after : Option Nat) (oldPosts newPosts : List Post)
    (endk : EndKind)
    (hend : endk ≠ EndKind.natural)
    (hold : resuming = true → oldPosts ≠ [])
    (hplain : fs0.plain = if resuming then some (arrayOf (oldPosts.map dumps)) else none) :
    c1Prop gzipF fs0 resuming after oldPosts newPosts endk := by
  unfold c1Prop
  cases hr : resuming with
  | true =>
      have hne := hold hr
      rw [hr] at hplain
      simp only [eq_self_iff_true, if_true] at hplain
      constructor
      · right
        refine ⟨arrayOf ((oldPosts ++ newPosts).map dumps), ?_,
          jsonArrayTxt_arrayOf _ (map_dumps_valTxt _)⟩
        rw [writer_resume_abort gzipF fs0 after oldPosts newPosts endk hplain hne hend]
      · intro j h1 h2
        have htk := take_ne_nil newPosts j h1 h2
        have hmc : midContent (fs0.plain.getD []) true (newPosts.take j) =
            arrayFront ((oldPosts ++ newPosts.take j).map dumps) := by
          unfold midContent
          rw [hplain]
          simp only [Option.getD_some]
          rw [writer_loop_resume oldPosts (newPosts.take j) hne]
          have hemp : (newPosts.take j).isEmpty = false := by
            cases h : newPosts.take j with
            | nil => exact absurd h htk
            | cons x xs => rfl
          rw [hemp]
          simp
        refine ⟨?_, ?_, ?_⟩
        · rw [hmc]
          simp
        · rw [hmc]
          refine arrayFront_getLast _ (map_dumps_ne_nil _ ?_) (map_dumps_endsBrace _)
          simp [hne]
        · rw [hmc]
          exact jsonArrayTxt_arrayOf _ (map_dumps_valTxt _)
  | false =>
      rw [hr] at hplain
      simp only [if_neg (by simp : ¬ (false = true))] at hplain
      constructor
      · cases hnp : newPosts with
        | nil =>
            cases endk with
            | natural => exact absurd rfl hend
            | interrupt =>
                right
                refine ⟨arrayOf [], ?_, jsonArrayTxt_arrayOf []
                  (by intro it hit; cases hit)⟩
                rw [writer_fresh_interrupt_empty gzipF fs0 after hplain]
            | httpErr s =>
                left
                rw [writer_fresh_err_empty gzipF fs0 after _ hplain (Or.inr ⟨s, rfl⟩)]
            | exc =>
                left
                rw [writer_fresh_err_empty gzipF fs0 after _ hplain (Or.inl rfl)]
        | cons p rest =>
            right
            refine ⟨arrayOf ((p :: rest).map dumps), ?_,
              jsonArrayTxt_arrayOf _ (map_dumps_valTxt _)⟩
            rw [writer_fresh_abort_nonempty gzipF fs0 after (p :: rest) endk hplain
              (by simp) hend]
      · intro j h1 h2
        have htk := take_ne_nil newPosts j h1 h2
        have hmc : midContent (fs0.plain.getD []) false (newPosts.take j) =
            arrayFront ((newPosts.take j).map dumps) := by
          unfold midContent
          rw [hplain]
          simp only [Option.getD_none]
          rw [writer_loop_fresh (newPosts.take j)]
        refine ⟨?_, ?_, ?_⟩
        · rw [hmc]
          simp
        · rw [hmc]
          exact arrayFront_getLast _ (map_dumps_ne_nil _ htk) (map_dumps_endsBrace _)
        · rw [hmc]
          exact jsonArrayTxt_arrayOf _ (map_dumps_valTxt _)

/-- Witness for C1: a resuming run over one archived record, one new
record, interrupted at the record boundary after it. -/
theorem c1_abort_prefix_valid_witness :
    EndKind.interrupt ≠ EndKind.natural ∧
    c1Prop id ⟨some (arrayOf ([postA].map dumps)), none, some (natChars 101)⟩ true
      (some 101) [postA] [postB] EndKind.interrupt :=
  ⟨by decide,
    c1_abort_prefix_valid id
      ⟨some (arrayOf ([postA].map dumps)), none, some (natChars 101)⟩ true
      (some 101) [postA] [postB] EndKind.interrupt (by decide)
      (fun _ => by simp) rfl⟩
